import Mathlib

/-!
Shallow embedding of the daily-digest news pipeline core
(`src/scraper/content_extractor.py`, `src/scraper/base_scraper.py`,
`src/processor/trending_analyzer.py`).

Python strings are Lean `String`s (ASCII payloads), Python floats are
modelled as exact rationals `ℚ`, Python ints as `ℕ`.  External
collaborators (the sklearn vectorizer, `urllib` parsing and joining,
`datetime` parsing, the HTTP session, the database) enter as explicit
function parameters; everything else is translated clause by clause from
the source.  Regex substitutions are rendered as left-to-right scanners
over the character list, mirroring `re.sub` semantics for the concrete
patterns used by the code.
-/

namespace DailyDigest

/-- Python `\s` whitespace (ASCII range). -/
def isSpaceB (c : Char) : Bool :=
  c = ' ' || c = '\t' || c = '\n' || c = '\r' || c = '\x0b' || c = '\x0c'

/-- Python `\w` word character (ASCII): letters, digits, underscore. -/
def isWordB (c : Char) : Bool := c.isAlpha || c.isDigit || c = '_'

/-- `str.lower()` (ASCII payloads), character by character. -/
def lowerStr (s : String) : String := String.mk (s.toList.map Char.toLower)

/-- `str.split()` with no arguments: split on whitespace runs, dropping
empty pieces.  `cur` holds the current word reversed. -/
def pySplitAux : List Char → List Char → List String
  | cur, [] => if cur.isEmpty then [] else [String.mk cur.reverse]
  | cur, c :: cs =>
    if isSpaceB c then
      if cur.isEmpty then pySplitAux [] cs
      else String.mk cur.reverse :: pySplitAux [] cs
    else pySplitAux (c :: cur) cs

def pySplit (s : String) : List String := pySplitAux [] s.toList

/-- Maximal runs of `\w` word characters, in order (helper for the
`\b[a-zA-Z]{4,}\b` token scan). -/
def wordRunsAux : List Char → List Char → List (List Char)
  | cur, [] => if cur.isEmpty then [] else [cur.reverse]
  | cur, c :: cs =>
    if isWordB c then wordRunsAux (c :: cur) cs
    else if cur.isEmpty then wordRunsAux [] cs
    else cur.reverse :: wordRunsAux [] cs

def startsWithL : List Char → List Char → Bool
  | [], _ => true
  | _ :: _, [] => false
  | p :: ps, c :: cs => p = c && startsWithL ps cs

/-- Does `pat` occur as a contiguous subsequence of the second list? -/
def containsSeq (pat : List Char) : List Char → Bool
  | [] => startsWithL pat []
  | c :: cs => startsWithL pat (c :: cs) || containsSeq pat cs

/-- Python `pat in s` substring test. -/
def containsSub (s pat : String) : Bool := containsSeq pat.toList s.toList

/-- First-occurrence deduplication (models `list(set(_))` up to order,
which Python leaves unspecified; only membership, distinctness and
cardinality are meaningful). -/
def dedupSeen {α : Type} [DecidableEq α] : List α → List α → List α
  | _, [] => []
  | seen, x :: xs =>
    if x ∈ seen then dedupSeen seen xs else x :: dedupSeen (x :: seen) xs

def dedupFirst {α : Type} [DecidableEq α] (l : List α) : List α := dedupSeen [] l

/-- Insert into a descending-by-key list, after all entries with a key
`≥` the new one (the stability discipline of Python's sort). -/
def insertDescBy {α β : Type} [LinearOrder β] (key : α → β) (x : α) : List α → List α
  | [] => [x]
  | y :: ys => if key x ≤ key y then y :: insertDescBy key x ys else x :: y :: ys

/-- Stable descending sort by key, as performed by Python's
`sorted(..., reverse=True)` / `list.sort(..., reverse=True)`. -/
def sortDescBy {α β : Type} [LinearOrder β] (key : α → β) (l : List α) : List α :=
  l.foldl (fun acc x => insertDescBy key x acc) []

/-! ### ContentExtractor (`src/scraper/content_extractor.py`) -/

/-- One attempted match of `<[^>]+>` at the head of the list; returns the
remainder after the closing `>` on success. -/
def dropTagAt : List Char → Option (List Char)
  | '<' :: rest =>
    let body := rest.takeWhile (fun c => c ≠ '>')
    if body.isEmpty then none
    else
      match rest.drop body.length with
      | '>' :: r => some r
      | _ => none
  | _ => none

/-- `re.sub(r'<[^>]+>', '', _)` as a fueled left-to-right scan (fuel is
initialised with the text length and never runs out). -/
def scanTags : ℕ → List Char → List Char
  | 0, l => l
  | _ + 1, [] => []
  | fuel + 1, c :: cs =>
    match dropTagAt (c :: cs) with
    | some rest => scanTags fuel rest
    | none => c :: scanTags fuel cs

/-- One attempted match of `http\S+|www\S+|https\S+` at the head of the
list (the `https` alternative is subsumed by the first). -/
def dropUrlAt1 : List Char → Option (List Char)
  | l =>
    if startsWithL "http".toList l then
      let rest := l.drop 4
      let run := rest.takeWhile (fun c => !(isSpaceB c))
      if run.isEmpty then none else some (rest.drop run.length)
    else if startsWithL "www".toList l then
      let rest := l.drop 3
      let run := rest.takeWhile (fun c => !(isSpaceB c))
      if run.isEmpty then none else some (rest.drop run.length)
    else none

/-- `re.sub(r'http\S+|www\S+|https\S+', '', _)` as a fueled scan. -/
def scanUrls1 : ℕ → List Char → List Char
  | 0, l => l
  | _ + 1, [] => []
  | fuel + 1, c :: cs =>
    match dropUrlAt1 (c :: cs) with
    | some rest => scanUrls1 fuel rest
    | none => c :: scanUrls1 fuel cs

/-- `re.sub(r'\n+', ' ', _)`: each newline run becomes one space. -/
def collapseNlAux : Bool → List Char → List Char
  | _, [] => []
  | prev, c :: cs =>
    if c = '\n' then
      if prev then collapseNlAux true cs else ' ' :: collapseNlAux true cs
    else c :: collapseNlAux false cs

/-- `re.sub(r'\s+', ' ', _)`: each whitespace run becomes one space. -/
def collapseWsAux : Bool → List Char → List Char
  | _, [] => []
  | prev, c :: cs =>
    if isSpaceB c then
      if prev then collapseWsAux true cs else ' ' :: collapseWsAux true cs
    else c :: collapseWsAux false cs

/-- `str.strip()`. -/
def stripChars (l : List Char) : List Char :=
  ((l.dropWhile isSpaceB).reverse.dropWhile isSpaceB).reverse

/-- `ContentExtractor.clean_text`. -/
def clean_text (text : String) : String :=
  let l0 := text.toList
  let l1 := scanTags l0.length l0
  let l2 := scanUrls1 l1.length l1
  let l3 := collapseNlAux false l2
  let l4 := collapseWsAux false l3
  String.mk (stripChars l4)

/-- The fixed stop-word list of `_extract_keywords_fallback`. -/
def fallback_stop_words : List String :=
  ["this", "that", "with", "have", "will", "from", "they", "been",
   "were", "said", "each", "which", "their", "time", "would", "there",
   "could", "other", "more", "very", "what", "know", "just", "first",
   "get", "over", "think", "also", "back", "after", "use", "two",
   "how", "our", "work", "life", "only", "can", "still", "should",
   "must", "want", "need", "make", "take", "come", "year", "years"]

/-- `re.findall(r'\b[a-zA-Z]{4,}\b', s)`.  Because letters are word
characters, a match must cover a maximal `\w` run, so the matches are
exactly the maximal word-character runs that consist purely of ASCII
letters and have length at least 4. -/
def findAlphaTokens (s : String) : List String :=
  ((wordRunsAux [] s.toList).filter
      (fun run => run.all Char.isAlpha && decide (4 ≤ run.length))).map String.mk

/-- `word_freq[word] = word_freq.get(word, 0) + 1` on an insertion-ordered
dict, modelled as an association list (new keys appended at the end). -/
def bumpCount : List (String × ℕ) → String → List (String × ℕ)
  | [], w => [(w, 1)]
  | (w', c) :: rest, w =>
    if w' = w then (w', c + 1) :: rest else (w', c) :: bumpCount rest w

def wordFreqList (ws : List String) : List (String × ℕ) := ws.foldl bumpCount []

/-- `filtered_words` of `_extract_keywords_fallback`. -/
def fallbackTokens (text : String) : List String :=
  (findAlphaTokens (lowerStr text)).filter (fun w => decide (w ∉ fallback_stop_words))

/-- `sorted_words` of `_extract_keywords_fallback`. -/
def fallbackRanked (text : String) : List (String × ℕ) :=
  sortDescBy (fun p => p.2) (wordFreqList (fallbackTokens text))

/-- `ContentExtractor._extract_keywords_fallback`, up to the final join. -/
def extract_keywords_fallback_list (text : String) (max_keywords : ℕ) : List String :=
  ((fallbackRanked text).take max_keywords).map (fun p => p.1)

def extract_keywords_fallback (text : String) (max_keywords : ℕ) : String :=
  String.intercalate ", " (extract_keywords_fallback_list text max_keywords)

/-- `ContentExtractor.extract_keywords`.  The `try` block computes the
primary keyword list with the sklearn `TfidfVectorizer` (an external
library); its outcome enters as `primary`: `some kws` is the successfully
computed top list, `none` models the raised exception that routes to the
fallback branch. -/
def extract_keywords (primary : Option (List String)) (text : String)
    (max_keywords : ℕ) : String :=
  let t := clean_text text
  let ws := pySplit t
  if ws.length < 10 then ""
  else
    match primary with
    | some kws => String.intercalate ", " kws
    | none => extract_keywords_fallback t max_keywords

/-- The fixed spam-phrase list of `is_quality_content`. -/
def spam_indicators : List String :=
  ["click here", "buy now", "limited time", "act now",
   "free trial", "sign up now", "subscribe", "download now"]

/-- Number of maximal runs matched by `re.findall(r'[.!?]+', content)`:
a run of consecutive terminators counts once. -/
def punctRunsAux : Bool → List Char → ℕ
  | _, [] => 0
  | prev, c :: cs =>
    if c = '.' || c = '!' || c = '?' then
      if prev then punctRunsAux true cs else punctRunsAux true cs + 1
    else punctRunsAux false cs

def sentence_runs (content : String) : ℕ := punctRunsAux false content.toList

/-- `sum(1 for indicator in spam_indicators if indicator in content_lower)`. -/
def spam_count (content : String) : ℕ :=
  (spam_indicators.filter (fun p => containsSub (lowerStr content) p)).length

/-- `ContentExtractor.is_quality_content`. -/
def is_quality_content (title content : String) (min_length : ℕ) : Bool :=
  if title = "" || content = "" then false
  else if content.length < min_length then false
  else if (pySplit title).length < 3 || (pySplit title).length > 20 then false
  else if spam_count content > 2 then false
  else if sentence_runs content < 3 then false
  else true

/-- Inner loop of `detect_duplicates`: scan the later indices `js`, adding
every unprocessed `j` with similarity at least the threshold to the group
(returned first) and to `processed` (returned second). -/
def ddInner (sim : ℕ → ℕ → ℚ) (threshold : ℚ) (i : ℕ) :
    List ℕ → List ℕ → List ℕ × List ℕ
  | [], processed => ([], processed)
  | j :: js, processed =>
    if j ∈ processed then ddInner sim threshold i js processed
    else if threshold ≤ sim i j then
      let r := ddInner sim threshold i js (j :: processed)
      (j :: r.1, r.2)
    else ddInner sim threshold i js processed

/-- One iteration of the outer loop of `detect_duplicates` at index `i`. -/
def ddStep (sim : ℕ → ℕ → ℚ) (threshold : ℚ) (n : ℕ)
    (st : List (List ℕ) × List ℕ) (i : ℕ) : List (List ℕ) × List ℕ :=
  if i ∈ st.2 then st
  else
    let r := ddInner sim threshold i (List.range' (i + 1) (n - (i + 1))) st.2
    let group := i :: r.1
    if 1 < group.length then (st.1 ++ [group], group ++ r.2) else (st.1, r.2)

/-- `ContentExtractor.detect_duplicates`.  `n` is the number of input
texts and `sim` the cosine-similarity matrix computed by the external
tf-idf vectorization (the surrounding `try`/`except` returns `[]` when
that vectorization fails).  A Python set group is represented by the list
of its members in increasing order; `processed` matters only up to list
membership. -/
def detect_duplicates (n : ℕ) (sim : ℕ → ℕ → ℚ) (threshold : ℚ) : List (List ℕ) :=
  if n < 2 then []
  else ((List.range n).foldl (ddStep sim threshold n) ([], [])).1

/-! ### Library lemmas about the helper functions -/

theorem mem_insertDescBy {α β : Type} [LinearOrder β] (key : α → β) (x a : α)
    (l : List α) : a ∈ insertDescBy key x l ↔ a = x ∨ a ∈ l := by
  induction l with
  | nil => simp [insertDescBy]
  | cons y ys ih =>
    simp only [insertDescBy]
    split
    · simp only [List.mem_cons, ih]
      tauto
    · simp only [List.mem_cons]

theorem pairwise_insertDescBy {α β : Type} [LinearOrder β] (key : α → β) (x : α)
    (l : List α) (h : l.Pairwise (fun a b => key b ≤ key a)) :
    (insertDescBy key x l).Pairwise (fun a b => key b ≤ key a) := by
  induction l with
  | nil => simp [insertDescBy]
  | cons y ys ih =>
    rcases List.pairwise_cons.mp h with ⟨hy, hys⟩
    simp only [insertDescBy]
    split
    · next hxy =>
      refine List.pairwise_cons.mpr ⟨?_, ih hys⟩
      intro b hb
      rcases (mem_insertDescBy key x b ys).mp hb with rfl | hbys
      · exact hxy
      · exact hy b hbys
    · next hxy =>
      refine List.pairwise_cons.mpr ⟨?_, h⟩
      intro b hb
      rcases List.mem_cons.mp hb with rfl | hbys
      · exact (not_le.mp hxy).le
      · exact le_trans (hy b hbys) (not_le.mp hxy).le

theorem mem_foldl_insertDescBy {α β : Type} [LinearOrder β] (key : α → β) (a : α)
    (l : List α) : ∀ acc : List α,
    (a ∈ l.foldl (fun acc x => insertDescBy key x acc) acc ↔ a ∈ acc ∨ a ∈ l) := by
  induction l with
  | nil => intro acc; simp
  | cons x xs ih =>
    intro acc
    simp only [List.foldl_cons, ih, mem_insertDescBy, List.mem_cons]
    tauto

theorem mem_sortDescBy {α β : Type} [LinearOrder β] (key : α → β) (a : α)
    (l : List α) : a ∈ sortDescBy key l ↔ a ∈ l := by
  unfold sortDescBy
  rw [mem_foldl_insertDescBy]
  simp

theorem pairwise_foldl_insertDescBy {α β : Type} [LinearOrder β] (key : α → β)
    (l : List α) : ∀ acc : List α, acc.Pairwise (fun a b => key b ≤ key a) →
    (l.foldl (fun acc x => insertDescBy key x acc) acc).Pairwise
      (fun a b => key b ≤ key a) := by
  induction l with
  | nil => intro acc h; simpa using h
  | cons x xs ih =>
    intro acc h
    exact ih (insertDescBy key x acc) (pairwise_insertDescBy key x acc h)

theorem pairwise_sortDescBy {α β : Type} [LinearOrder β] (key : α → β)
    (l : List α) : (sortDescBy key l).Pairwise (fun a b => key b ≤ key a) :=
  pairwise_foldl_insertDescBy key l [] (by simp)

/-- Association-list lookup with default 0 (first match wins, like a dict). -/
def getCount : List (String × ℕ) → String → ℕ
  | [], _ => 0
  | (w', c) :: rest, w => if w' = w then c else getCount rest w

theorem getCount_bumpCount (acc : List (String × ℕ)) (w x : String) :
    getCount (bumpCount acc w) x =
      if x = w then getCount acc x + 1 else getCount acc x := by
  induction acc with
  | nil =>
    by_cases hxw : x = w
    · subst hxw; simp [bumpCount, getCount]
    · have hwx : ¬ w = x := fun h => hxw h.symm
      simp [bumpCount, getCount, hxw, hwx]
  | cons p rest ih =>
    rcases p with ⟨w', c⟩
    by_cases hw : w' = w
    · subst hw
      by_cases hxw : x = w'
      · subst hxw; simp [bumpCount, getCount]
      · have hwx : ¬ w' = x := fun h => hxw h.symm
        simp [bumpCount, getCount, hxw, hwx]
    · by_cases hx : w' = x
      · subst hx
        simp [bumpCount, getCount, hw]
      · simp [bumpCount, getCount, hw, hx, ih]

theorem bumpCount_keys (acc : List (String × ℕ)) (w : String) :
    (bumpCount acc w).map Prod.fst =
      if w ∈ acc.map Prod.fst then acc.map Prod.fst
      else acc.map Prod.fst ++ [w] := by
  induction acc with
  | nil => simp [bumpCount]
  | cons p rest ih =>
    rcases p with ⟨w', c⟩
    by_cases hw : w' = w
    · subst hw; simp [bumpCount]
    · have hw' : ¬ w = w' := fun h => hw h.symm
      by_cases hmem : w ∈ rest.map Prod.fst <;>
        simp [bumpCount, hw, hw', hmem, ih]

theorem keys_nodup_foldl_bumpCount (ws : List String) :
    ∀ acc : List (String × ℕ), (acc.map Prod.fst).Nodup →
    ((ws.foldl bumpCount acc).map Prod.fst).Nodup := by
  induction ws with
  | nil => intro acc h; simpa using h
  | cons w ws ih =>
    intro acc h
    refine ih (bumpCount acc w) ?_
    rw [bumpCount_keys]
    split
    · exact h
    · next hnm =>
      rw [List.nodup_append]
      refine ⟨h, List.nodup_singleton w, ?_⟩
      intro a ha hmem
      simp only [List.mem_singleton] at hmem
      subst hmem
      exact hnm ha

theorem keys_sub_foldl_bumpCount (ws : List String) :
    ∀ acc : List (String × ℕ), ∀ x ∈ (ws.foldl bumpCount acc).map Prod.fst,
    x ∈ acc.map Prod.fst ∨ x ∈ ws := by
  induction ws with
  | nil => intro acc x hx; exact Or.inl hx
  | cons w ws ih =>
    intro acc x hx
    rcases ih (bumpCount acc w) x hx with hacc | hws
    · rw [bumpCount_keys] at hacc
      revert hacc
      split
      · intro hacc; exact Or.inl hacc
      · intro hacc
        rcases List.mem_append.mp hacc with h | h
        · exact Or.inl h
        · simp only [List.mem_singleton] at h
          exact Or.inr (by simp [h])
    · exact Or.inr (List.mem_cons_of_mem _ hws)

theorem getCount_of_mem (acc : List (String × ℕ))
    (hn : (acc.map Prod.fst).Nodup) :
    ∀ p ∈ acc, p.2 = getCount acc p.1 := by
  induction acc with
  | nil => intro p hp; cases hp
  | cons q rest ih =>
    rcases q with ⟨w', c⟩
    intro p hp
    rcases List.mem_cons.mp hp with rfl | hrest
    · simp [getCount]
    · have hne : w' ≠ p.1 := by
        intro h
        have : p.1 ∈ rest.map Prod.fst := List.mem_map_of_mem Prod.fst hrest
        rw [← h] at this
        exact (List.nodup_cons.mp (by simpa using hn)).1 this
      have hrest_nodup : (rest.map Prod.fst).Nodup :=
        (List.nodup_cons.mp (by simpa using hn)).2
      simp [getCount, hne, ih hrest_nodup p hrest]

theorem getCount_foldl_bumpCount (ws : List String) :
    ∀ (acc : List (String × ℕ)) (x : String),
    getCount (ws.foldl bumpCount acc) x = getCount acc x + ws.count x := by
  induction ws with
  | nil => intro acc x; simp
  | cons w ws ih =>
    intro acc x
    simp only [List.foldl_cons, ih, getCount_bumpCount, List.count_cons]
    by_cases hxw : x = w
    · simp [hxw]
      omega
    · have : ¬ w = x := fun h => hxw h.symm
      simp [hxw, this]

theorem wordFreqList_keys_nodup (ws : List String) :
    ((wordFreqList ws).map Prod.fst).Nodup :=
  keys_nodup_foldl_bumpCount ws [] (by simp)

theorem wordFreqList_count (ws : List String) :
    ∀ p ∈ wordFreqList ws, p.2 = ws.count p.1 := by
  intro p hp
  have h1 : p.2 = getCount (wordFreqList ws) p.1 :=
    getCount_of_mem (wordFreqList ws) (wordFreqList_keys_nodup ws) p hp
  have h2 : getCount (wordFreqList ws) p.1 = ws.count p.1 := by
    have := getCount_foldl_bumpCount ws [] p.1
    simpa [wordFreqList, getCount] using this
  rw [h1, h2]

theorem wordFreqList_keys_mem (ws : List String) :
    ∀ p ∈ wordFreqList ws, p.1 ∈ ws := by
  intro p hp
  have : p.1 ∈ (wordFreqList ws).map Prod.fst := List.mem_map_of_mem Prod.fst hp
  rcases keys_sub_foldl_bumpCount ws [] p.1 this with h | h
  · simp at h
  · exact h

theorem mem_dedupSeen {α : Type} [DecidableEq α] (l : List α) :
    ∀ (seen : List α) (x : α), x ∈ dedupSeen seen l ↔ x ∈ l ∧ x ∉ seen := by
  induction l with
  | nil => intro seen x; simp [dedupSeen]
  | cons y ys ih =>
    intro seen x
    simp only [dedupSeen]
    split
    · next hy =>
      rw [ih]
      simp only [List.mem_cons]
      constructor
      · rintro ⟨h1, h2⟩; exact ⟨Or.inr h1, h2⟩
      · rintro ⟨h1 | h1, h2⟩
        · subst h1; exact absurd hy h2
        · exact ⟨h1, h2⟩
    · next hy =>
      simp only [List.mem_cons, ih, not_or]
      constructor
      · rintro (rfl | ⟨h1, h2⟩)
        · exact ⟨Or.inl rfl, hy⟩
        · exact ⟨Or.inr h1, h2.2⟩
      · rintro ⟨rfl | h1, h2⟩
        · exact Or.inl rfl
        · by_cases hxy : x = y
          · exact Or.inl hxy
          · exact Or.inr ⟨h1, hxy, h2⟩

theorem nodup_dedupSeen {α : Type} [DecidableEq α] (l : List α) :
    ∀ seen : List α, (dedupSeen seen l).Nodup := by
  induction l with
  | nil => intro seen; simp [dedupSeen]
  | cons y ys ih =>
    intro seen
    simp only [dedupSeen]
    split
    · exact ih seen
    · refine List.nodup_cons.mpr ⟨?_, ih (y :: seen)⟩
      intro hy
      exact ((mem_dedupSeen ys (y :: seen) y).mp hy).2 (List.mem_cons_self y seen)

theorem mem_dedupFirst {α : Type} [DecidableEq α] (l : List α) (x : α) :
    x ∈ dedupFirst l ↔ x ∈ l := by
  unfold dedupFirst
  rw [mem_dedupSeen]
  simp

theorem nodup_dedupFirst {α : Type} [DecidableEq α] (l : List α) :
    (dedupFirst l).Nodup :=
  nodup_dedupSeen l []

theorem length_dedupFirst_le {α : Type} [DecidableEq α] (l : List α) :
    (dedupFirst l).length ≤ l.length := by
  unfold dedupFirst
  generalize [] = seen
  induction l generalizing seen with
  | nil => simp [dedupSeen]
  | cons y ys ih =>
    simp only [dedupSeen]
    split
    · exact le_trans (ih seen) (by simp)
    · simpa using ih (y :: seen)

/-! ### Claim C5: quality filter -/

/-- Number of individual sentence-terminating punctuation marks, the count
the claim describes (the code counts maximal runs instead). -/
def punct_mark_count (content : String) : ℕ :=
  (content.toList.filter (fun c => c = '.' || c = '!' || c = '?')).length

/-- Spec-side reject condition of claim C5, formalised from the claim's
words: rejection happens exactly when title or body is empty, the body is
shorter than `min_length`, the title word count is outside `[3, 20]`, more
than 2 spam phrases occur in the body, or the body contains fewer than 3
sentence-terminating punctuation marks (counted individually). -/
def quality_reject_spec (title content : String) (min_length : ℕ) : Bool :=
  title = "" || content = "" || decide (content.length < min_length) ||
  decide ((pySplit title).length < 3) || decide (20 < (pySplit title).length) ||
  decide (2 < spam_count content) || decide (punct_mark_count content < 3)

/-- C5 counterexample: on title "Good Solid Title Here" and body
"aaaa bbbb cccc..." with `min_length = 10`, none of the claim's reject
conditions holds (the body carries three terminator marks), yet the code
rejects, because `len(re.findall(r'[.!?]+', content))` counts the run
"..." once. -/
theorem C5_counterexample :
    is_quality_content "Good Solid Title Here" "aaaa bbbb cccc..." 10 = false ∧
    quality_reject_spec "Good Solid Title Here" "aaaa bbbb cccc..." 10 = false := by
  constructor <;> decide

/-- C5 amended: `is_quality_content` rejects iff title or body is empty,
the body is shorter than `min_length`, the title word count is outside
`[3, 20]`, more than 2 spam phrases occur in the body, or the body
contains fewer than 3 maximal runs of sentence-terminating punctuation;
in particular `is_quality("Hi", "short", min_length=100)` is false. -/
theorem C5_quality_reject_iff :
    (∀ (title content : String) (min_length : ℕ),
      is_quality_content title content min_length = false ↔
        (title = "" ∨ content = "" ∨ content.length < min_length ∨
         (pySplit title).length < 3 ∨ 20 < (pySplit title).length ∨
         2 < spam_count content ∨ sentence_runs content < 3)) ∧
    is_quality_content "Hi" "short" 100 = false := by
  constructor
  · intro title content min_length
    unfold is_quality_content
    split_ifs with h1 h2 h3 h4 h5
    · simp only [Bool.or_eq_true, decide_eq_true_eq] at h1
      exact iff_of_true rfl (by tauto)
    · exact iff_of_true rfl (by tauto)
    · simp only [Bool.or_eq_true, decide_eq_true_eq] at h3
      exact iff_of_true rfl (by tauto)
    · exact iff_of_true rfl (by tauto)
    · exact iff_of_true rfl (by tauto)
    · simp only [Bool.or_eq_true, decide_eq_true_eq, not_or] at h1 h3
      obtain ⟨h1a, h1b⟩ := h1
      obtain ⟨h3a, h3b⟩ := h3
      refine iff_of_false (by simp) ?_
      rintro (hc | hc | hc | hc | hc | hc | hc)
      · exact h1a hc
      · exact h1b hc
      · exact h2 hc
      · exact h3a hc
      · exact h3b hc
      · exact h4 hc
      · exact h5 hc
  · decide

/-! ### Claim C10: short text yields empty keywords -/

/-- C10: for every input whose cleaned form splits into fewer than 10
whitespace-separated words, `extract_keywords` returns the empty string,
for every outcome of the primary tf-idf computation (so neither the
primary path nor the frequency fallback is consulted, and no exception
escapes). -/
theorem C10_short_text_empty (primary : Option (List String)) (text : String)
    (max_keywords : ℕ) (h : (pySplit (clean_text text)).length < 10) :
    extract_keywords primary text max_keywords = "" := by
  unfold extract_keywords
  simp [h]

theorem C10_short_text_empty_witness :
    (pySplit (clean_text "elephant giraffe elephant")).length < 10 ∧
    extract_keywords none "elephant giraffe elephant" 5 = "" :=
  ⟨by decide, C10_short_text_empty none "elephant giraffe elephant" 5 (by decide)⟩

/-! ### Claim C8: fallback keyword extraction -/

/-- C8 counterexample: on the very short text "elephant giraffe elephant"
the primary method cannot run, yet `extract_keywords` returns the empty
string rather than the frequency-fallback ranking ("elephant, giraffe"@5):
texts of fewer than 10 cleaned words short-circuit before the fallback. -/
theorem C8_counterexample :
    extract_keywords none "elephant giraffe elephant" 5 = "" ∧
    extract_keywords_fallback (clean_text "elephant giraffe elephant") 5
      = "elephant, giraffe" := by
  constructor <;> decide

/-- C8 amended: when the primary tf-idf computation raises (modelled by
`primary = none`) on a text whose cleaned form has at least 10 words,
`extract_keywords` returns the frequency fallback over the cleaned text:
the comma-joined top `max_keywords` tokens, where tokens are the
alphabetic runs of length ≥ 4 of the lower-cased text with the fixed
stop-word list removed, ranked by descending occurrence count.  (Texts
with fewer than 10 cleaned words instead yield `""`.) -/
theorem C8_fallback_on_primary_failure (text : String) (max_keywords : ℕ)
    (h : 10 ≤ (pySplit (clean_text text)).length) :
    extract_keywords none text max_keywords
      = extract_keywords_fallback (clean_text text) max_keywords ∧
    (extract_keywords_fallback_list (clean_text text) max_keywords).length
      ≤ max_keywords ∧
    (∀ w ∈ extract_keywords_fallback_list (clean_text text) max_keywords,
      w ∈ findAlphaTokens (lowerStr (clean_text text)) ∧
        w ∉ fallback_stop_words) ∧
    (fallbackRanked (clean_text text)).Pairwise (fun p q => q.2 ≤ p.2) ∧
    (∀ p ∈ fallbackRanked (clean_text text),
      p.2 = (fallbackTokens (clean_text text)).count p.1) := by
  refine ⟨?_, ?_, ?_, ?_, ?_⟩
  · unfold extract_keywords
    rw [if_neg (by omega)]
  · unfold extract_keywords_fallback_list
    calc (((fallbackRanked (clean_text text)).take max_keywords).map
            (fun p => p.1)).length
        = ((fallbackRanked (clean_text text)).take max_keywords).length := by
          rw [List.length_map]
      _ ≤ max_keywords := List.length_take_le _ _
  · intro w hw
    unfold extract_keywords_fallback_list at hw
    rcases List.mem_map.mp hw with ⟨p, hp, rfl⟩
    have hp' : p ∈ fallbackRanked (clean_text text) := List.mem_of_mem_take hp
    have hp'' : p ∈ wordFreqList (fallbackTokens (clean_text text)) := by
      unfold fallbackRanked at hp'
      exact (mem_sortDescBy _ _ _).mp hp'
    have hkey : p.1 ∈ fallbackTokens (clean_text text) :=
      wordFreqList_keys_mem _ p hp''
    unfold fallbackTokens at hkey
    have := List.mem_filter.mp hkey
    refine ⟨this.1, ?_⟩
    have hdec := this.2
    simpa using hdec
  · exact pairwise_sortDescBy _ _
  · intro p hp
    have hp'' : p ∈ wordFreqList (fallbackTokens (clean_text text)) := by
      unfold fallbackRanked at hp
      exact (mem_sortDescBy _ _ _).mp hp
    exact wordFreqList_count _ p hp''

theorem C8_fallback_on_primary_failure_witness :
    10 ≤ (pySplit (clean_text
      "alpha beta gamma delta epsilon zeta eta theta iota kappa")).length ∧
    extract_keywords none
        "alpha beta gamma delta epsilon zeta eta theta iota kappa" 5
      = extract_keywords_fallback (clean_text
          "alpha beta gamma delta epsilon zeta eta theta iota kappa") 5 :=
  ⟨by decide, (C8_fallback_on_primary_failure
      "alpha beta gamma delta epsilon zeta eta theta iota kappa" 5 (by decide)).1⟩

/-! ### Claim C4: duplicate clustering -/

theorem ddInner_proc_eq (sim : ℕ → ℕ → ℚ) (th : ℚ) (i : ℕ) (js : List ℕ) :
    ∀ proc : List ℕ,
    (ddInner sim th i js proc).2 = (ddInner sim th i js proc).1.reverse ++ proc := by
  induction js with
  | nil => intro proc; simp [ddInner]
  | cons j js ih =>
    intro proc
    simp only [ddInner]
    split
    · exact ih proc
    · split
      · rw [ih (j :: proc)]
        simp
      · exact ih proc

theorem ddInner_tail_sub (sim : ℕ → ℕ → ℚ) (th : ℚ) (i : ℕ) (js : List ℕ) :
    ∀ proc : List ℕ, ∀ x ∈ (ddInner sim th i js proc).1, x ∈ js := by
  induction js with
  | nil => intro proc x hx; simp [ddInner] at hx
  | cons j js ih =>
    intro proc x hx
    simp only [ddInner] at hx
    revert hx
    split
    · intro hx; exact List.mem_cons_of_mem _ (ih proc x hx)
    · split
      · intro hx
        rcases List.mem_cons.mp hx with rfl | hx
        · exact List.mem_cons_self _ _
        · exact List.mem_cons_of_mem _ (ih (j :: proc) x hx)
      · intro hx; exact List.mem_cons_of_mem _ (ih proc x hx)

theorem ddInner_tail_not_proc (sim : ℕ → ℕ → ℚ) (th : ℚ) (i : ℕ) (js : List ℕ) :
    ∀ proc : List ℕ, ∀ x ∈ (ddInner sim th i js proc).1, x ∉ proc := by
  induction js with
  | nil => intro proc x hx; simp [ddInner] at hx
  | cons j js ih =>
    intro proc x hx
    simp only [ddInner] at hx
    revert hx
    split
    · intro hx; exact ih proc x hx
    · next hj =>
      split
      · intro hx
        rcases List.mem_cons.mp hx with rfl | hx
        · exact hj
        · intro hxp
          exact ih (j :: proc) x hx (List.mem_cons_of_mem _ hxp)
      · intro hx; exact ih proc x hx

theorem ddInner_tail_nodup (sim : ℕ → ℕ → ℚ) (th : ℚ) (i : ℕ) (js : List ℕ) :
    ∀ proc : List ℕ, (ddInner sim th i js proc).1.Nodup := by
  induction js with
  | nil => intro proc; simp [ddInner]
  | cons j js ih =>
    intro proc
    simp only [ddInner]
    split
    · exact ih proc
    · split
      · refine List.nodup_cons.mpr ⟨?_, ih (j :: proc)⟩
        intro hj
        exact ddInner_tail_not_proc sim th i js (j :: proc) j hj
          (List.mem_cons_self _ _)
      · exact ih proc

theorem ddInner_complete (sim : ℕ → ℕ → ℚ) (th : ℚ) (i : ℕ) (js : List ℕ) :
    ∀ proc : List ℕ, ∀ j ∈ js, th ≤ sim i j →
    j ∈ (ddInner sim th i js proc).2 := by
  induction js with
  | nil => intro proc j hj; cases hj
  | cons j' js ih =>
    intro proc j hj hsim
    rcases List.mem_cons.mp hj with rfl | hj
    · by_cases hjp : j ∈ proc
      · simp only [ddInner, if_pos hjp]
        rw [ddInner_proc_eq]
        exact List.mem_append_right _ hjp
      · simp only [ddInner, if_neg hjp, if_pos hsim]
        have : j ∈ (ddInner sim th i js (j :: proc)).2 := by
          rw [ddInner_proc_eq]
          exact List.mem_append_right _ (List.mem_cons_self _ _)
        exact this
    · by_cases hjp : j' ∈ proc
      · simp only [ddInner, if_pos hjp]
        exact ih proc j hj hsim
      · by_cases hs : th ≤ sim i j'
        · simp only [ddInner, if_neg hjp, if_pos hs]
          exact ih (j' :: proc) j hj hsim
        · simp only [ddInner, if_neg hjp, if_neg hs]
          exact ih proc j hj hsim

/-- The loop invariant of `detect_duplicates`: every emitted group has at
least two distinct members, the groups are pairwise disjoint, and
`processed` is exactly the union of the emitted groups. -/
def DDInv (st : List (List ℕ) × List ℕ) : Prop :=
  (∀ g ∈ st.1, 2 ≤ g.length ∧ g.Nodup) ∧
  st.1.Pairwise (fun g h => ∀ x ∈ g, x ∉ h) ∧
  (∀ x : ℕ, x ∈ st.2 ↔ ∃ g ∈ st.1, x ∈ g)

theorem emit_inv (st : List (List ℕ) × List ℕ) (i : ℕ) (r : List ℕ × List ℕ)
    (hpe : r.2 = r.1.reverse ++ st.2)
    (hgt : ∀ x ∈ r.1, i < x)
    (hnp : ∀ x ∈ r.1, x ∉ st.2)
    (hnd : r.1.Nodup)
    (hi : i ∉ st.2)
    (hlen : ∀ g ∈ st.1, 2 ≤ g.length ∧ g.Nodup)
    (hdisj : st.1.Pairwise (fun g h => ∀ x ∈ g, x ∉ h))
    (hproc : ∀ x : ℕ, x ∈ st.2 ↔ ∃ g ∈ st.1, x ∈ g) :
    DDInv (if 1 < (i :: r.1).length
           then (st.1 ++ [i :: r.1], (i :: r.1) ++ r.2)
           else (st.1, r.2)) := by
  split
  · next hbig =>
    refine ⟨?_, ?_, ?_⟩
    · intro g hg
      rcases List.mem_append.mp hg with hg | hg
      · exact hlen g hg
      · simp only [List.mem_singleton] at hg
        subst hg
        refine ⟨by simpa using hbig, List.nodup_cons.mpr ⟨?_, hnd⟩⟩
        intro hir
        exact absurd (hgt i hir) (lt_irrefl i)
    · rw [List.pairwise_append]
      refine ⟨hdisj, by simp, ?_⟩
      intro g hg g' hg' x hxg
      simp only [List.mem_singleton] at hg'
      subst hg'
      have hxp : x ∈ st.2 := (hproc x).mpr ⟨g, hg, hxg⟩
      intro hxgrp
      rcases List.mem_cons.mp hxgrp with rfl | hxr
      · exact hi hxp
      · exact hnp x hxr hxp
    · intro x
      constructor
      · intro hx
        rcases List.mem_append.mp hx with hx | hx
        · exact ⟨i :: r.1, List.mem_append_right _ (List.mem_singleton.mpr rfl), hx⟩
        · rw [hpe] at hx
          rcases List.mem_append.mp hx with hx | hx
          · exact ⟨i :: r.1, List.mem_append_right _ (List.mem_singleton.mpr rfl),
              List.mem_cons_of_mem _ (List.mem_reverse.mp hx)⟩
          · rcases (hproc x).mp hx with ⟨g, hg, hxg⟩
            exact ⟨g, List.mem_append_left _ hg, hxg⟩
      · rintro ⟨g, hg, hxg⟩
        rcases List.mem_append.mp hg with hg | hg
        · have : x ∈ st.2 := (hproc x).mpr ⟨g, hg, hxg⟩
          refine List.mem_append_right _ ?_
          rw [hpe]
          exact List.mem_append_right _ this
        · simp only [List.mem_singleton] at hg
          subst hg
          exact List.mem_append_left _ hxg
  · next hbig =>
    have hnil : r.1 = [] := by
      cases hr1 : r.1 with
      | nil => rfl
      | cons a l => exact absurd (by simp [hr1]) hbig
    have h2 : r.2 = st.2 := by rw [hpe, hnil]; simp
    rw [h2]
    exact ⟨hlen, hdisj, hproc⟩

theorem ddStep_inv (sim : ℕ → ℕ → ℚ) (th : ℚ) (n i : ℕ)
    (st : List (List ℕ) × List ℕ) (h : DDInv st) :
    DDInv (ddStep sim th n st i) := by
  rcases h with ⟨hlen, hdisj, hproc⟩
  by_cases hi : i ∈ st.2
  · simp only [ddStep, if_pos hi]
    exact ⟨hlen, hdisj, hproc⟩
  · simp only [ddStep, if_neg hi]
    refine emit_inv st i _ (ddInner_proc_eq sim th i _ st.2) ?_
      (ddInner_tail_not_proc sim th i _ st.2) (ddInner_tail_nodup sim th i _ st.2)
      hi hlen hdisj hproc
    intro x hx
    have := ddInner_tail_sub sim th i _ st.2 x hx
    rw [List.mem_range'_1] at this
    omega

theorem ddStep_proc_mono (sim : ℕ → ℕ → ℚ) (th : ℚ) (n i : ℕ)
    (st : List (List ℕ) × List ℕ) (x : ℕ) (hx : x ∈ st.2) :
    x ∈ (ddStep sim th n st i).2 := by
  by_cases hi : i ∈ st.2
  · simp only [ddStep, if_pos hi]
    exact hx
  · simp only [ddStep, if_neg hi]
    have hpe := ddInner_proc_eq sim th i (List.range' (i + 1) (n - (i + 1))) st.2
    split
    · exact List.mem_append_right _ (by rw [hpe]; exact List.mem_append_right _ hx)
    · exact (by rw [hpe]; exact List.mem_append_right _ hx :
        x ∈ (ddInner sim th i (List.range' (i + 1) (n - (i + 1))) st.2).2)

theorem ddStep_dups_mono (sim : ℕ → ℕ → ℚ) (th : ℚ) (n i : ℕ)
    (st : List (List ℕ) × List ℕ) (g : List ℕ) (hg : g ∈ st.1) :
    g ∈ (ddStep sim th n st i).1 := by
  by_cases hi : i ∈ st.2
  · simp only [ddStep, if_pos hi]
    exact hg
  · simp only [ddStep, if_neg hi]
    split
    · exact List.mem_append_left _ hg
    · exact hg

theorem ddFoldl_proc_mono (sim : ℕ → ℕ → ℚ) (th : ℚ) (n : ℕ) (l : List ℕ) :
    ∀ (st : List (List ℕ) × List ℕ) (x : ℕ), x ∈ st.2 →
    x ∈ (l.foldl (ddStep sim th n) st).2 := by
  induction l with
  | nil => intro st x hx; exact hx
  | cons a l ih =>
    intro st x hx
    exact ih (ddStep sim th n st a) x (ddStep_proc_mono sim th n a st x hx)

theorem ddFoldl_inv (sim : ℕ → ℕ → ℚ) (th : ℚ) (n : ℕ) (l : List ℕ) :
    ∀ st : List (List ℕ) × List ℕ, DDInv st →
    DDInv (l.foldl (ddStep sim th n) st) := by
  induction l with
  | nil => intro st h; exact h
  | cons a l ih =>
    intro st h
    exact ih (ddStep sim th n st a) (ddStep_inv sim th n a st h)

theorem ddFoldl_pair_clustered (sim : ℕ → ℕ → ℚ) (th : ℚ) (n i j : ℕ)
    (hij : i < j) (hjn : j < n) (hsim : th ≤ sim i j) (l : List ℕ) :
    ∀ st : List (List ℕ) × List ℕ, i ∈ l →
    i ∉ (l.foldl (ddStep sim th n) st).2 →
    j ∉ (l.foldl (ddStep sim th n) st).2 → False := by
  induction l with
  | nil => intro st hi _ _; cases hi
  | cons a l ih =>
    intro st hil hifin hjfin
    rcases List.mem_cons.mp hil with rfl | hil
    · by_cases hi2 : i ∈ st.2
      · exact hifin (ddFoldl_proc_mono sim th n l (ddStep sim th n st i) i
          (ddStep_proc_mono sim th n i st i hi2))
      · have hjjs : j ∈ List.range' (i + 1) (n - (i + 1)) := by
          rw [List.mem_range'_1]
          omega
        have hj2 : j ∈ (ddInner sim th i (List.range' (i + 1) (n - (i + 1))) st.2).2 :=
          ddInner_complete sim th i _ st.2 j hjjs hsim
        rw [ddInner_proc_eq] at hj2
        rcases List.mem_append.mp hj2 with hjr | hjp
        · rw [List.mem_reverse] at hjr
          have hstep : j ∈ (ddStep sim th n st i).2 := by
            simp only [ddStep, if_neg hi2]
            split
            · exact List.mem_append_left _ (List.mem_cons_of_mem _ hjr)
            · next hbig =>
              exfalso
              have hpos : 0 <
                  (ddInner sim th i (List.range' (i + 1) (n - (i + 1))) st.2).1.length :=
                List.length_pos.mpr (List.ne_nil_of_mem hjr)
              simp only [List.length_cons, not_lt] at hbig
              omega
          exact hjfin (ddFoldl_proc_mono sim th n l (ddStep sim th n st i) j hstep)
        · exact hjfin (ddFoldl_proc_mono sim th n l (ddStep sim th n st i) j
            (ddStep_proc_mono sim th n i st j hjp))
    · exact ih (ddStep sim th n st a) hil hifin hjfin

/-- C4 amended: the clusters returned by `detect_duplicates` are pairwise
disjoint index sets of size at least 2, and every pair of texts with
similarity at least the threshold has at least one member inside some
returned cluster — but the two need not land in the same cluster, because
the greedy first-seen-wins pass is not closed under similarity chains. -/
theorem C4_dedup_clusters (n : ℕ) (sim : ℕ → ℕ → ℚ) (threshold : ℚ) :
    (∀ g ∈ detect_duplicates n sim threshold, 2 ≤ g.length ∧ g.Nodup) ∧
    (detect_duplicates n sim threshold).Pairwise (fun g h => ∀ x ∈ g, x ∉ h) ∧
    (∀ i j : ℕ, i < j → j < n → threshold ≤ sim i j →
      (∃ g ∈ detect_duplicates n sim threshold, i ∈ g) ∨
      (∃ g ∈ detect_duplicates n sim threshold, j ∈ g)) := by
  unfold detect_duplicates
  split
  · next hn =>
    refine ⟨by simp, by simp, ?_⟩
    intro i j hij hjn hsim
    omega
  · next hn =>
    have hinv : DDInv ((List.range n).foldl (ddStep sim threshold n) ([], [])) := by
      refine ddFoldl_inv sim threshold n (List.range n) ([], []) ⟨?_, ?_, ?_⟩
      · intro g hg; cases hg
      · simp
      · intro x; simp
    rcases hinv with ⟨hlen, hdisj, hproc⟩
    refine ⟨hlen, hdisj, ?_⟩
    intro i j hij hjn hsim
    by_contra hcon
    rw [not_or] at hcon
    rcases hcon with ⟨hi, hj⟩
    refine ddFoldl_pair_clustered sim threshold n i j hij hjn hsim
      (List.range n) ([], []) (List.mem_range.mpr (by omega)) ?_ ?_
    · intro hmem
      exact hi ((hproc i).mp hmem)
    · intro hmem
      exact hj ((hproc j).mp hmem)

/-- 4/5 as a normal-form rational (a kernel-reducible literal). -/
def q45 : ℚ := ⟨4, 5, by norm_num, by norm_num⟩

/-- 3/5 as a normal-form rational. -/
def q35 : ℚ := ⟨3, 5, by norm_num, by norm_num⟩

/-- 24/25 as a normal-form rational. -/
def q2425 : ℚ := ⟨24, 25, by norm_num, by norm_num⟩

/-- The cosine-similarity matrix of the nonnegative vectors (5,0), (4,3)
and (3,4): sim(0,1) = 20/25 = 4/5, sim(0,2) = 15/25 = 3/5 and
sim(1,2) = (12+12)/25 = 24/25 — a genuine tf-idf-style cosine
configuration forming a similarity chain 0 ~ 1 ~ 2 with 0 and 2 apart. -/
def simCosine : ℕ → ℕ → ℚ := fun i j =>
  if i = 0 ∧ j = 1 ∨ i = 1 ∧ j = 0 then q45
  else if i = 0 ∧ j = 2 ∨ i = 2 ∧ j = 0 then q35
  else if i = 1 ∧ j = 2 ∨ i = 2 ∧ j = 1 then q2425
  else 1

theorem C4_dedup_clusters_witness :
    (∃ g ∈ detect_duplicates 3 simCosine q45, (1 : ℕ) ∈ g) ∨
    (∃ g ∈ detect_duplicates 3 simCosine q45, (2 : ℕ) ∈ g) :=
  (C4_dedup_clusters 3 simCosine q45).2.2 1 2 (by decide) (by decide) (by decide)

/-- C4 counterexample: with the cosine matrix `simCosine` and the default
0.8 threshold, texts 1 and 2 have similarity 24/25 ≥ 4/5, yet the greedy
pass emits only the cluster [0, 1]: text 1 is claimed by the cluster
seeded at text 0, text 2 matches no unprocessed seed, so the similar pair
(1, 2) never appears together in any returned cluster, refuting the
claim's "they appear together in the same returned cluster". -/
theorem C4_counterexample :
    q45 = 4/5 ∧ simCosine 1 2 = 24/25 ∧ q45 ≤ simCosine 1 2 ∧
    detect_duplicates 3 simCosine q45 = [[0, 1]] ∧
    ¬ (∃ g ∈ detect_duplicates 3 simCosine q45, 1 ∈ g ∧ 2 ∈ g) := by
  refine ⟨?_, ?_, by decide, by decide, by decide⟩
  · rw [q45, Rat.mk'_eq_divInt]
    norm_num [Rat.divInt_eq_div]
  · show q2425 = 24/25
    rw [q2425, Rat.mk'_eq_divInt]
    norm_num [Rat.divInt_eq_div]

/-! ### BaseScraper (`src/scraper/base_scraper.py`) -/

/-- The retry loop of `BaseScraper.fetch_page`, iterating over the
attempt indices.  `outcome a` is the result of `self.session.get` plus
parsing on attempt `a` (`some page` on success, `none` when the request
or `raise_for_status` raises).  Returns the fetched page (if any), the
number of attempts performed, and the total seconds slept by the
backoff (`time.sleep(2 ** attempt)` after every failed attempt other
than the last). -/
def fetchLoop {α : Type} (outcome : ℕ → Option α) (retry_attempts : ℕ) :
    List ℕ → ℕ → Option α × ℕ × ℕ
  | [], slept => (none, 0, slept)
  | a :: rest, slept =>
    match outcome a with
    | some page => (some page, 1, slept)
    | none =>
      let slept' := if a < retry_attempts - 1 then slept + 2 ^ a else slept
      let r := fetchLoop outcome retry_attempts rest slept'
      (r.1, r.2.1 + 1, r.2.2)

/-- `BaseScraper.fetch_page` (the retry/backoff structure; the request
itself is the external `outcome`). -/
def fetch_page {α : Type} (outcome : ℕ → Option α) (retry_attempts : ℕ) :
    Option α × ℕ × ℕ :=
  fetchLoop outcome retry_attempts (List.range retry_attempts) 0

theorem fetchLoop_all_none {α : Type} (outcome : ℕ → Option α) (retry : ℕ)
    (l : List ℕ) (h : ∀ a ∈ l, outcome a = none) :
    ∀ s : ℕ, fetchLoop outcome retry l s =
      (none, l.length, s + (l.map (fun a => if a < retry - 1 then 2 ^ a else 0)).sum) := by
  induction l with
  | nil => intro s; simp [fetchLoop]
  | cons a rest ih =>
    intro s
    have ha := h a (List.mem_cons_self a rest)
    simp only [fetchLoop, ha]
    rw [ih (fun b hb => h b (List.mem_cons_of_mem a hb))]
    simp only [List.map_cons, List.sum_cons, List.length_cons, Prod.mk.injEq]
    refine ⟨trivial, trivial, ?_⟩
    split_ifs with ha2
    · omega
    · omega

/-- C6: when every attempt fails, `fetch_page` performs exactly
`max_attempts` attempts, sleeps `2^attempt` seconds after each failed
attempt except the last (no sleep before attempt 0), and returns a
failure value (`none`) instead of raising — the loop swallows every
per-attempt exception. -/
theorem C6_fetch_backoff {α : Type} (outcome : ℕ → Option α) (n : ℕ)
    (h : ∀ a < n, outcome a = none) :
    fetch_page outcome n =
      (none, n, ((List.range (n - 1)).map (fun a => 2 ^ a)).sum) := by
  unfold fetch_page
  rw [fetchLoop_all_none outcome n (List.range n)
    (fun a ha => h a (List.mem_range.mp ha)) 0]
  simp only [List.length_range, Nat.zero_add, Prod.mk.injEq]
  refine ⟨trivial, trivial, ?_⟩
  rcases n with _ | m
  · simp
  · have hmap : (List.range m).map (fun a => if a < m + 1 - 1 then 2 ^ a else 0)
        = (List.range m).map (fun a => 2 ^ a) := by
      apply List.map_congr_left
      intro a ha
      rw [if_pos]
      have := List.mem_range.mp ha
      omega
    rw [List.range_succ, List.map_append, List.sum_append, hmap]
    simp

/-- C6 witness: 3 consecutive failures with `max_attempts = 3` yield a
failure after exactly 3 attempts and `1 + 2 = 3` seconds of backoff. -/
theorem C6_fetch_backoff_witness :
    (∀ a < 3, (fun _ => (none : Option Unit)) a = none) ∧
    fetch_page (fun _ => (none : Option Unit)) 3 =
      (none, 3, ((List.range 2).map (fun a => 2 ^ a)).sum) ∧
    ((List.range 2).map (fun a => (2 : ℕ) ^ a)).sum = 3 :=
  ⟨fun _ _ => rfl,
   C6_fetch_backoff (fun _ => (none : Option Unit)) 3 (fun _ _ => rfl),
   by decide⟩

/-! ### Link discovery (`BaseScraper.extract_article_links`) -/

/-- The result of `urllib.parse.urlparse`, restricted to the two fields
the code reads. -/
structure UrlParts where
  scheme : String
  netloc : String

/-- The fixed allow-list of single-domain sources. -/
def allowed_domains : List String :=
  ["www.bbc.com", "www.theguardian.com", "www.npr.org", "apnews.com",
   "www.sciencedaily.com", "www.livescience.com",
   "techcrunch.com", "arstechnica.com", "www.engadget.com"]

/-- The fixed non-article URL patterns.  All of them are literal strings
(no metacharacters), so `re.search(pattern, url, re.IGNORECASE)` is a
case-insensitive substring test. -/
def invalid_patterns : List String :=
  ["/video/", "/gallery/", "/live/", "/sport/", "/podcast/",
   "#", "javascript:", "mailto:", "tel:", "/tag/", "/author/",
   "/category/", "/search/", "/subscribe", "/newsletter"]

/-- `BaseScraper._is_valid_article_url`; `parse` abstracts
`urllib.parse.urlparse` (the surrounding `try`/`except` is unreachable
for a total `parse`). -/
def is_valid_article_url (parse : String → UrlParts) (base_url url : String) :
    Bool :=
  if (parse url).scheme = "" || (parse url).netloc = "" then false
  else if lowerStr (parse base_url).netloc ∈ allowed_domains &&
      !(lowerStr (parse url).netloc = lowerStr (parse base_url).netloc) then false
  else if invalid_patterns.any (fun pat => containsSub (lowerStr url) pat) then false
  else true

/-- `BaseScraper.extract_article_links`.  `elements` carries the `href`
attribute of each element matching the link selector, in document order
(`none` when the element has no `href`); `resolve` abstracts
`urljoin(self.base_url, _)`.  The loop walks `elements[:max_articles]`,
appends every valid resolved link in order, and the function returns
`list(set(links))` — whose order Python leaves unspecified, modelled
here as first-occurrence deduplication. -/
def extract_article_links (parse : String → UrlParts) (resolve : String → String)
    (base_url : String) (elements : List (Option String)) (max_articles : ℕ) :
    List String :=
  dedupFirst ((elements.take max_articles).filterMap
    (fun el =>
      match el with
      | some href =>
        if is_valid_article_url parse base_url (resolve href) then
          some (resolve href)
        else none
      | none => none))

/-- The pipeline in the claim's order, formalised from the spec's words:
collect the hrefs, resolve each against the base URL, deduplicate,
filter through the validity rule, and cap at `max_articles` at the end. -/
def extract_article_links_spec (parse : String → UrlParts)
    (resolve : String → String) (base_url : String)
    (elements : List (Option String)) (max_articles : ℕ) : List String :=
  ((dedupFirst ((elements.filterMap id).map resolve)).filter
    (fun u => is_valid_article_url parse base_url u)).take max_articles

/-- A concrete `urlparse` for the two URLs of the C9 scenario. -/
def parseX : String → UrlParts := fun u =>
  if u = "https://x.com/a" then ⟨"https", "x.com"⟩
  else if u = "https://x.com" then ⟨"https", "x.com"⟩
  else ⟨"javascript", ""⟩

/-- C9 counterexample: with two link elements and `max_articles = 1`,
the code truncates the element list to the single invalid
`javascript:void(0)` link and returns `[]`, while the claim's pipeline
(dedup and filter first, cap last) returns the valid second link — so
link discovery is not "exactly" the claimed composition. -/
theorem C9_counterexample :
    extract_article_links parseX id "https://x.com"
        [some "javascript:void(0)", some "https://x.com/a"] 1 = [] ∧
    extract_article_links_spec parseX id "https://x.com"
        [some "javascript:void(0)", some "https://x.com/a"] 1
      = ["https://x.com/a"] := by
  constructor <;> decide

/-- C9 amended: link discovery returns the deduplication of the
validity-filtered resolutions of the hrefs of the FIRST `max_articles`
elements (the cap applies to the matched elements before filtering, and
deduplication happens last, in unspecified order); consequently every
returned URL passes the validity rule, the returned list has no
duplicates, and its length is at most `max_articles`. -/
theorem C9_link_discovery (parse : String → UrlParts)
    (resolve : String → String) (base_url : String)
    (elements : List (Option String)) (max_articles : ℕ) :
    (∀ u ∈ extract_article_links parse resolve base_url elements max_articles,
      is_valid_article_url parse base_url u = true) ∧
    (extract_article_links parse resolve base_url elements max_articles).Nodup ∧
    (extract_article_links parse resolve base_url elements max_articles).length
      ≤ max_articles := by
  refine ⟨?_, nodup_dedupFirst _, ?_⟩
  · intro u hu
    unfold extract_article_links at hu
    rw [mem_dedupFirst] at hu
    rcases List.mem_filterMap.mp hu with ⟨el, _, hm⟩
    cases el with
    | none => cases hm
    | some href =>
      dsimp only at hm
      by_cases hv : is_valid_article_url parse base_url (resolve href) = true
      · rw [if_pos hv] at hm
        cases hm
        exact hv
      · rw [if_neg hv] at hm
        cases hm
  · calc (extract_article_links parse resolve base_url elements max_articles).length
        ≤ ((elements.take max_articles).filterMap
            (fun el =>
              match el with
              | some href =>
                if is_valid_article_url parse base_url (resolve href) then
                  some (resolve href)
                else none
              | none => none)).length := length_dedupFirst_le _
      _ ≤ (elements.take max_articles).length := List.length_filterMap_le _ _
      _ ≤ max_articles := List.length_take_le _ _

theorem C9_link_discovery_witness :
    "https://x.com/a" ∈ extract_article_links parseX id "https://x.com"
        [some "https://x.com/a"] 5 ∧
    is_valid_article_url parseX "https://x.com" "https://x.com/a" = true :=
  ⟨by decide,
   (C9_link_discovery parseX id "https://x.com" [some "https://x.com/a"] 5).1
     "https://x.com/a" (by decide)⟩

/-! ### TrendingAnalyzer (`src/processor/trending_analyzer.py`) -/

/-- Python `s[:n]` on strings (by code points). -/
def takeStr (s : String) (n : ℕ) : String := String.mk (s.toList.take n)

/-- `TrendingAnalyzer._get_fallback_stopwords()` (the stop-word set used
when NLTK is unavailable; the NLTK-derived set is environment data, so
the analyzer's stop-word set stays a parameter `stop` below and this
list is its concrete in-repo instance). -/
def trending_fallback_stopwords : List String :=
  ["the", "a", "an", "and", "or", "but", "in", "on", "at", "to", "for",
   "of", "with", "by", "from", "up", "about", "into", "through", "during",
   "before", "after", "above", "below", "down", "out", "off", "over",
   "under", "again", "further", "then", "once", "here", "there", "when",
   "where", "why", "how", "all", "any", "both", "each", "few", "more",
   "most", "other", "some", "such", "no", "nor", "not", "only", "own",
   "same", "so", "than", "too", "very", "can", "will", "just", "should",
   "now", "is", "are", "was", "were", "been", "be", "have", "has", "had",
   "do", "does", "did", "say", "says", "said", "get", "got", "make", "made",
   "go", "went", "come", "came", "take", "took", "see", "saw", "know", "knew",
   "think", "thought", "look", "looked", "use", "used", "find", "found",
   "give", "gave", "tell", "told", "work", "worked", "call", "called",
   "try", "tried", "ask", "asked", "need", "needed", "feel", "felt",
   "become", "became", "leave", "left", "put", "i", "me", "my", "myself",
   "we", "our", "ours", "ourselves", "you", "your", "yours", "yourself",
   "yourselves", "he", "him", "his", "himself", "she", "her", "hers",
   "herself", "it", "its", "itself", "they", "them", "their", "theirs",
   "themselves", "what", "which", "who", "whom", "this", "that", "these",
   "those", "am", "being", "having", "doing", "would", "could", "should",
   "may", "might", "must", "shall", "one", "two", "also", "back", "even",
   "still", "well", "much", "many", "new", "first", "last", "good", "way"]

/-- One attempted match of `http[s]?://\S+|www\.\S+` at the head (the
optional `[s]?` is expanded into the two concrete spellings). -/
def dropUrlAt2 : List Char → Option (List Char)
  | l =>
    if startsWithL "http://".toList l then
      let rest := l.drop 7
      let run := rest.takeWhile (fun c => !(isSpaceB c))
      if run.isEmpty then none else some (rest.drop run.length)
    else if startsWithL "https://".toList l then
      let rest := l.drop 8
      let run := rest.takeWhile (fun c => !(isSpaceB c))
      if run.isEmpty then none else some (rest.drop run.length)
    else if startsWithL "www.".toList l then
      let rest := l.drop 4
      let run := rest.takeWhile (fun c => !(isSpaceB c))
      if run.isEmpty then none else some (rest.drop run.length)
    else none

/-- `re.sub(r'http[s]?://\S+|www\.\S+', '', _)` as a fueled scan. -/
def scanUrls2 : ℕ → List Char → List Char
  | 0, l => l
  | _ + 1, [] => []
  | fuel + 1, c :: cs =>
    match dropUrlAt2 (c :: cs) with
    | some rest => scanUrls2 fuel rest
    | none => c :: scanUrls2 fuel cs

/-- Does a maximal non-space run contain `@` at an interior position
(neither first nor last)?  Exactly then does `\S+@\S+` match inside the
run, and the greedy match covers the whole run. -/
def emailRun (run : List Char) : Bool :=
  (run.drop 1).dropLast.any (fun c => c = '@')

/-- `re.sub(r'\S+@\S+', '', _)`: each maximal non-space run with an
interior `@` is removed whole. -/
def scanEmails : ℕ → List Char → List Char
  | 0, l => l
  | _ + 1, [] => []
  | fuel + 1, c :: cs =>
    if isSpaceB c then c :: scanEmails fuel cs
    else
      let run := (c :: cs).takeWhile (fun d => !(isSpaceB d))
      let rest := (c :: cs).dropWhile (fun d => !(isSpaceB d))
      if emailRun run then scanEmails fuel rest
      else run ++ scanEmails fuel rest

/-- `re.sub(r'[^\w\s-]', ' ', _)`. -/
def replaceNonWord (l : List Char) : List Char :=
  l.map (fun c => if isWordB c || isSpaceB c || c = '-' then c else ' ')

/-- The cleaning pipeline of `TrendingAnalyzer._extract_keywords` up to
`text.split()`. -/
def trendClean (text : String) : String :=
  let l0 := (lowerStr text).toList
  let l1 := scanUrls2 l0.length l0
  let l2 := scanEmails l1.length l1
  let l3 := replaceNonWord l2
  let l4 := collapseWsAux false l3
  String.mk l4

/-- Python `str.isdigit()` on ASCII: nonempty and all digits. -/
def pyIsDigit (s : List Char) : Bool := !s.isEmpty && s.all Char.isDigit

/-- Python `str.isalpha()` on ASCII: nonempty and all letters. -/
def pyIsAlpha (s : List Char) : Bool := !s.isEmpty && s.all Char.isAlpha

/-- The per-word filter of `TrendingAnalyzer._extract_keywords`:
length in [3, 50], hyphen-stripped form not a stop word, not purely
numeric (with or without hyphens), alphabetic ignoring hyphens, and not
starting or ending with a hyphen. -/
def trendWordOk (stop : List String) (word : String) : Bool :=
  let chars := word.toList
  let dehyph := chars.filter (fun c => c ≠ '-')
  decide (3 ≤ chars.length) && decide (chars.length ≤ 50) &&
  decide (String.mk dehyph ∉ stop) &&
  !(pyIsDigit chars) && !(pyIsDigit dehyph) &&
  pyIsAlpha dehyph &&
  !(decide (chars.head? = some '-')) && !(decide (chars.getLast? = some '-'))

/-- `TrendingAnalyzer._extract_keywords`: clean, split, filter, and
repeat every surviving word `weight` times (in order). -/
def trend_extract_keywords (stop : List String) (text : String) (weight : ℕ) :
    List String :=
  if text = "" then []
  else
    ((pySplit (trendClean text)).filter (trendWordOk stop)).flatMap
      (fun w => List.replicate weight w)

/-- A row of the `articles` table as produced by `_get_recent_articles`
(after its `or 0` / `or 'neutral'` defaulting); `scraped_date` is the
raw stored timestamp string. -/
structure ArticleRow where
  id : ℕ
  title : String
  content : String
  source : String
  sentiment_score : ℚ
  sentiment_label : String
  scraped_date : String
  deriving DecidableEq

/-- The per-article summary appended to a keyword's `articles` list. -/
structure ArticleRef where
  id : ℕ
  title : String
  source : String
  sentiment : String
  scraped_date : String
  deriving DecidableEq

def articleRef (a : ArticleRow) : ArticleRef :=
  ⟨a.id, a.title, a.source, a.sentiment_label, a.scraped_date⟩

/-- The per-keyword accumulator of `_extract_keywords_from_articles`. -/
structure KData where
  count : ℕ
  articles : List ArticleRef
  sentiments : List ℚ
  timestamps : List String
  deriving DecidableEq

def kdEmpty : KData := ⟨0, [], [], []⟩

/-- The keyword-entry update performed for one article mentioning the
keyword, where `cnt = all_keywords.count(keyword)`. -/
def kdUpdate (a : ArticleRow) (cnt : ℕ) (d : KData) : KData :=
  ⟨d.count + cnt, d.articles ++ [articleRef a],
   d.sentiments ++ [a.sentiment_score], d.timestamps ++ [a.scraped_date]⟩

/-- `defaultdict` access: update the entry for `k` in place, inserting
the default at the end on first touch (dict insertion order). -/
def upsert (k : String) (f : KData → KData) :
    List (String × KData) → List (String × KData)
  | [] => [(k, f kdEmpty)]
  | (k', d) :: rest =>
    if k' = k then (k', f d) :: rest else (k', d) :: upsert k f rest

/-- The per-article body of the accumulation loop of
`_extract_keywords_from_articles` (iteration over `set(all_keywords)`
is modelled by first-occurrence order; Python's set order is
unspecified and affects only tie order downstream). -/
def addArticleKeywords (stop : List String) (kd : List (String × KData))
    (a : ArticleRow) : List (String × KData) :=
  let title_keywords := trend_extract_keywords stop a.title 2
  let content_keywords := trend_extract_keywords stop (takeStr a.content 500) 1
  let all_keywords := title_keywords ++ content_keywords
  (dedupFirst all_keywords).foldl
    (fun kd k => upsert k (kdUpdate a (all_keywords.count k)) kd) kd

/-- The accumulation phase of `_extract_keywords_from_articles` (the
aggregated metrics of its second loop are computed at use sites). -/
def extract_keywords_from_articles (stop : List String)
    (articles : List ArticleRow) : List (String × KData) :=
  articles.foldl (addArticleKeywords stop) []

/-- `data['total_articles'] = len(set(a['id'] for a in data['articles']))`. -/
def kdTotalArticles (d : KData) : ℕ :=
  (dedupFirst (d.articles.map (fun r => r.id))).length

/-- `data['avg_sentiment']`. -/
def kdAvgSentiment (d : KData) : ℚ :=
  if d.sentiments = [] then 0
  else d.sentiments.sum / (d.sentiments.length : ℚ)

/-- `data['articles'].sort(key=..., reverse=True)`: stable descending
sort by the stored timestamp string. -/
def kdSortedArticles (d : KData) : List ArticleRef :=
  sortDescBy (fun r => r.scraped_date) d.articles

/-- One timestamp's contribution inside `_calculate_recency_score`.
`parseTs` abstracts `datetime.fromisoformat` and the subtraction from
`now`: it yields the elapsed hours, or `none` when parsing raises. -/
def tsScore (parseTs : String → Option ℚ) (s : String) : ℚ :=
  match parseTs s with
  | some hours_ago => max 0 (1 - hours_ago / 24)
  | none => 0

/-- `TrendingAnalyzer._calculate_recency_score`. -/
def calculate_recency_score (parseTs : String → Option ℚ)
    (timestamps : List String) : ℚ :=
  if timestamps = [] then 0
  else
    let scores := timestamps.map (tsScore parseTs)
    if scores = [] then 0 else scores.sum / (scores.length : ℚ)

/-- Python `round(x, 3)` over exact rationals: round half to even. -/
def roundHalfEven (x : ℚ) : ℤ :=
  if x - ⌊x⌋ < 1/2 then ⌊x⌋
  else if 1/2 < x - ⌊x⌋ then ⌊x⌋ + 1
  else if ⌊x⌋ % 2 = 0 then ⌊x⌋ else ⌊x⌋ + 1

def round3 (x : ℚ) : ℚ := (roundHalfEven (x * 1000) : ℚ) / 1000

/-- `TrendingAnalyzer._calculate_trend_score` (the float weights 0.3 and
0.2 as exact rationals). -/
def calculate_trend_score (frequency article_count : ℕ)
    (avg_sentiment recency_score : ℚ) : ℚ :=
  round3 (min 1 ((frequency : ℚ) / 20) * (3/10) +
    min 1 ((article_count : ℚ) / 10) * (3/10) +
    |avg_sentiment| * (1/5) + recency_score * (1/5))

structure TrendingTopic where
  keyword : String
  frequency : ℕ
  articles_count : ℕ
  avg_sentiment : ℚ
  recent_articles : List ArticleRef
  trend_score : ℚ
  deriving DecidableEq

/-- The `TrendingTopic(...)` construction in the main loop of
`get_trending_topics`, for one surviving keyword entry. -/
def mkTopic (parseTs : String → Option ℚ) (kv : String × KData) : TrendingTopic :=
  { keyword := kv.1
    frequency := kv.2.count
    articles_count := kv.2.articles.length
    avg_sentiment := kdAvgSentiment kv.2
    recent_articles := (kdSortedArticles kv.2).take 5
    trend_score := calculate_trend_score kv.2.count (kdTotalArticles kv.2)
      (kdAvgSentiment kv.2) (calculate_recency_score parseTs kv.2.timestamps) }

/-- `TrendingAnalyzer.get_trending_topics` after the database pull:
`articles` is the time-window query result, `fault` models an unexpected
exception raised inside the `try` block (which is caught, logged and
turned into `[]`), `stop` is the analyzer's stop-word set and `parseTs`
abstracts timestamp parsing against `now`. -/
def get_trending_topics (stop : List String) (parseTs : String → Option ℚ)
    (fault : Bool) (articles : List ArticleRow)
    (min_articles max_topics : ℕ) : List TrendingTopic :=
  if fault then []
  else if articles.length < min_articles then []
  else
    let kd := extract_keywords_from_articles stop articles
    let topics := kd.foldl
      (fun acc kv =>
        if min_articles ≤ kv.2.count then acc ++ [mkTopic parseTs kv]
        else acc) []
    (sortDescBy (fun t => t.trend_score) topics).take max_topics

/-! ### Claim C1: the trending filter -/

def rowElection : ArticleRow :=
  ⟨1, "election", "election", "src1", 0, "neutral", "t1"⟩

def rowPad2 : ArticleRow := ⟨2, "", "", "src2", 0, "neutral", "t2"⟩

def rowPad3 : ArticleRow := ⟨3, "", "", "src3", 0, "neutral", "t3"⟩

/-- Three stored articles; only the first mentions "election" (title and
body), the other two carry no keywords at all. -/
def electionRows : List ArticleRow := [rowElection, rowPad2, rowPad3]

/-- C1 failing input, evaluated: with `min_articles = 3`, the keyword
"election" is contributed by a single article but with weighted count
2 (title) + 1 (body) = 3, so `data['count'] >= min_articles` passes and
a topic with `articles_count = 1 < min_articles` is returned — the
filter compares the weighted occurrence count, not the distinct-article
count, contradicting the claim (and the function's own docstring for
`min_articles`). -/
theorem C1_filter_uses_weighted_count :
    (get_trending_topics trending_fallback_stopwords (fun _ => some 0) false
        electionRows 3 10).map
      (fun t => (t.keyword, t.frequency, t.articles_count))
      = [("election", 3, 1)] := by
  decide

/-! ### Claim C3: recency score -/

/-- C3: for every non-empty timestamp list the recency score is the mean
of the per-timestamp contributions, where an unparseable timestamp
contributes 0, a timestamp of "now" (0 hours ago) contributes 1, one 24
or more hours old contributes 0, and the decay is linear in between. -/
theorem C3_recency (parseTs : String → Option ℚ) (timestamps : List String)
    (h : timestamps ≠ []) :
    calculate_recency_score parseTs timestamps
      = (timestamps.map (tsScore parseTs)).sum / ((timestamps.length : ℕ) : ℚ) ∧
    (∀ s, parseTs s = some 0 → tsScore parseTs s = 1) ∧
    (∀ s q, parseTs s = some q → 24 ≤ q → tsScore parseTs s = 0) ∧
    (∀ s q, parseTs s = some q → 0 ≤ q → q ≤ 24 →
      tsScore parseTs s = 1 - q / 24) ∧
    (∀ s, parseTs s = none → tsScore parseTs s = 0) := by
  refine ⟨?_, ?_, ?_, ?_, ?_⟩
  · unfold calculate_recency_score
    rw [if_neg h, if_neg (by simpa using h)]
    rw [List.length_map]
  · intro s hs
    unfold tsScore
    rw [hs]
    norm_num
  · intro s q hs hq
    unfold tsScore
    rw [hs]
    have h24 : (1 : ℚ) - q / 24 ≤ 0 := by
      have : (1 : ℚ) ≤ q / 24 := by
        rw [le_div_iff₀ (by norm_num : (0:ℚ) < 24)]
        linarith
      linarith
    exact max_eq_left h24
  · intro s q hs hq0 hq24
    unfold tsScore
    rw [hs]
    have h24 : (0 : ℚ) ≤ 1 - q / 24 := by
      have : q / 24 ≤ 1 := by
        rw [div_le_one (by norm_num : (0:ℚ) < 24)]
        linarith
      linarith
    exact max_eq_right h24
  · intro s hs
    unfold tsScore
    rw [hs]

/-- Concrete timestamp parser for the C3 witness: "t0" parses to 0 hours
ago, everything else fails to parse. -/
def parseW : String → Option ℚ := fun s => if s = "t0" then some 0 else none

theorem C3_recency_witness :
    (["t0"] : List String) ≠ [] ∧
    calculate_recency_score parseW ["t0"]
      = ((["t0"] : List String).map (tsScore parseW)).sum
        / (((["t0"] : List String).length : ℕ) : ℚ) :=
  ⟨by decide, (C3_recency parseW ["t0"] (by decide)).1⟩

/-! ### Claim C7: empty results -/

/-- C7 counterexample: the "insufficient corpus" result (no recent
articles, no fault) and the "internal fault" result are the same empty
list — the returned value does not distinguish the two cases (only the
log line differs), refuting the claimed distinguishable marker. -/
theorem C7_counterexample :
    get_trending_topics trending_fallback_stopwords (fun _ => some 0) false
        [] 3 10
      = get_trending_topics trending_fallback_stopwords (fun _ => some 0) true
          electionRows 3 10 := by
  decide

/-- C7 amended: when fewer than `min_articles` recent articles exist,
`get_trending_topics` returns the empty list, and any unexpected
internal fault during aggregation is caught and surfaced as the SAME
empty list (with a logged cause) rather than a raised exception; the
two cases are not distinguishable from the return value. -/
theorem C7_empty_results (stop : List String) (parseTs : String → Option ℚ)
    (articles : List ArticleRow) (min_articles max_topics : ℕ) :
    get_trending_topics stop parseTs true articles min_articles max_topics = [] ∧
    (articles.length < min_articles →
      get_trending_topics stop parseTs false articles min_articles max_topics
        = []) := by
  constructor
  · rfl
  · intro h
    unfold get_trending_topics
    rw [if_neg (by simp), if_pos h]

theorem C7_empty_results_witness :
    ([] : List ArticleRow).length < 3 ∧
    get_trending_topics trending_fallback_stopwords (fun _ => some 0) false
        [] 3 10 = [] :=
  ⟨by decide,
   (C7_empty_results trending_fallback_stopwords (fun _ => some 0) [] 3 10).2
     (by decide)⟩

/-! ### Claim C2: trend-score formula and bounds -/

theorem dedupSeen_eq_self {α : Type} [DecidableEq α] (l : List α) :
    ∀ seen : List α, l.Nodup → (∀ x ∈ l, x ∉ seen) → dedupSeen seen l = l := by
  induction l with
  | nil => intro seen _ _; rfl
  | cons x xs ih =>
    intro seen hnd hs
    rcases List.nodup_cons.mp hnd with ⟨hx, hxs⟩
    have htail : dedupSeen (x :: seen) xs = xs := by
      apply ih (x :: seen) hxs
      intro y hy hmem
      rcases List.mem_cons.mp hmem with heq | hmem
      · subst heq; exact hx hy
      · exact hs y (List.mem_cons_of_mem x hy) hmem
    simp only [dedupSeen, if_neg (hs x (List.mem_cons_self x xs)), htail]

theorem dedupFirst_eq_self {α : Type} [DecidableEq α] (l : List α)
    (h : l.Nodup) : dedupFirst l = l :=
  dedupSeen_eq_self l [] h (by simp)

/-- What the accumulation loop guarantees per keyword entry, relative to
the articles processed so far: the sentiment list is non-empty and drawn
from the rows, and the contributing-article ids form a subsequence of
the row ids (one entry per contributing row, in order). -/
def KDataOk (rows : List ArticleRow) (d : KData) : Prop :=
  d.sentiments ≠ [] ∧
  (∀ s ∈ d.sentiments, ∃ a ∈ rows, s = a.sentiment_score) ∧
  (d.articles.map (fun r => r.id)).Sublist (rows.map (fun a => a.id))

theorem KDataOk_mono (rows : List ArticleRow) (a : ArticleRow) (d : KData)
    (h : KDataOk rows d) : KDataOk (rows ++ [a]) d := by
  rcases h with ⟨h1, h2, h3⟩
  refine ⟨h1, ?_, ?_⟩
  · intro s hs
    rcases h2 s hs with ⟨b, hb, hsb⟩
    exact ⟨b, List.mem_append_left _ hb, hsb⟩
  · rw [List.map_append]
    exact h3.trans (List.sublist_append_left _ _)

theorem KDataOk_update (rows : List ArticleRow) (a : ArticleRow) (cnt : ℕ)
    (d : KData) (h : KDataOk rows d) :
    KDataOk (rows ++ [a]) (kdUpdate a cnt d) := by
  rcases h with ⟨h1, h2, h3⟩
  refine ⟨by simp [kdUpdate], ?_, ?_⟩
  · intro s hs
    simp only [kdUpdate, List.mem_append, List.mem_singleton] at hs
    rcases hs with hs | hs
    · rcases h2 s hs with ⟨b, hb, hsb⟩
      exact ⟨b, List.mem_append_left _ hb, hsb⟩
    · exact ⟨a, List.mem_append_right _ (List.mem_singleton.mpr rfl), hs⟩
  · simp only [kdUpdate, List.map_append, List.map_cons, List.map_nil, articleRef]
    exact List.Sublist.append h3 (List.Sublist.refl _)

theorem KDataOk_update_empty (rows : List ArticleRow) (a : ArticleRow)
    (cnt : ℕ) : KDataOk (rows ++ [a]) (kdUpdate a cnt kdEmpty) := by
  refine ⟨by simp [kdUpdate, kdEmpty], ?_, ?_⟩
  · intro s hs
    simp only [kdUpdate, kdEmpty, List.nil_append, List.mem_singleton] at hs
    exact ⟨a, List.mem_append_right _ (List.mem_singleton.mpr rfl), hs⟩
  · simp only [kdUpdate, kdEmpty, List.map_append, List.nil_append,
      List.map_cons, List.map_nil, articleRef]
    exact List.sublist_append_right _ _

theorem upsert_keys (k : String) (f : KData → KData)
    (kd : List (String × KData)) :
    (upsert k f kd).map Prod.fst =
      if k ∈ kd.map Prod.fst then kd.map Prod.fst
      else kd.map Prod.fst ++ [k] := by
  induction kd with
  | nil => simp [upsert]
  | cons p rest ih =>
    rcases p with ⟨k', d⟩
    by_cases hk : k' = k
    · subst hk; simp [upsert]
    · have hk2 : ¬ k = k' := fun h => hk h.symm
      by_cases hmem : k ∈ rest.map Prod.fst <;>
        simp [upsert, hk, hk2, hmem, ih]

theorem mem_upsert (k : String) (f : KData → KData) :
    ∀ kd : List (String × KData), (kd.map Prod.fst).Nodup →
    ∀ kv ∈ upsert k f kd,
      (kv ∈ kd ∧ kv.1 ≠ k) ∨
      (∃ d, (k, d) ∈ kd ∧ kv = (k, f d)) ∨
      (kv = (k, f kdEmpty) ∧ k ∉ kd.map Prod.fst) := by
  intro kd
  induction kd with
  | nil =>
    intro _ kv hkv
    simp only [upsert, List.mem_singleton] at hkv
    exact Or.inr (Or.inr ⟨hkv, by simp⟩)
  | cons p rest ih =>
    rcases p with ⟨k', d⟩
    intro hnd kv hkv
    have hk'rest : k' ∉ rest.map Prod.fst :=
      (List.nodup_cons.mp (by simpa using hnd)).1
    have hrestnd : (rest.map Prod.fst).Nodup :=
      (List.nodup_cons.mp (by simpa using hnd)).2
    by_cases hk : k' = k
    · subst hk
      simp only [upsert, if_pos rfl] at hkv
      rcases List.mem_cons.mp hkv with rfl | hkv
      · exact Or.inr (Or.inl ⟨d, List.mem_cons_self _ _, rfl⟩)
      · have hne : kv.1 ≠ k' := by
          intro h
          apply hk'rest
          rw [← h]
          exact List.mem_map_of_mem Prod.fst hkv
        exact Or.inl ⟨List.mem_cons_of_mem _ hkv, hne⟩
    · simp only [upsert, if_neg hk] at hkv
      rcases List.mem_cons.mp hkv with rfl | hkv
      · exact Or.inl ⟨List.mem_cons_self _ _, hk⟩
      · rcases ih hrestnd kv hkv with ⟨h1, h2⟩ | ⟨d', hd', heq⟩ | ⟨heq, hnm⟩
        · exact Or.inl ⟨List.mem_cons_of_mem _ h1, h2⟩
        · exact Or.inr (Or.inl ⟨d', List.mem_cons_of_mem _ hd', heq⟩)
        · refine Or.inr (Or.inr ⟨heq, ?_⟩)
          simp only [List.map_cons, List.mem_cons]
          rintro (h | h)
          · exact hk h.symm
          · exact hnm h

theorem foldl_upsert_ok (a : ArticleRow) (pre : List ArticleRow)
    (allkw : List String) :
    ∀ (ks : List String) (kd : List (String × KData)),
    ks.Nodup → (kd.map Prod.fst).Nodup →
    (∀ kv ∈ kd, KDataOk pre kv.2 ∨ (kv.1 ∉ ks ∧ KDataOk (pre ++ [a]) kv.2)) →
    ((ks.foldl (fun kd k => upsert k (kdUpdate a (allkw.count k)) kd) kd).map
        Prod.fst).Nodup ∧
    (∀ kv ∈ ks.foldl (fun kd k => upsert k (kdUpdate a (allkw.count k)) kd) kd,
      KDataOk (pre ++ [a]) kv.2) := by
  intro ks
  induction ks with
  | nil =>
    intro kd _ hknd hinv
    refine ⟨hknd, ?_⟩
    intro kv hkv
    rcases hinv kv hkv with h | ⟨_, h⟩
    · exact KDataOk_mono pre a kv.2 h
    · exact h
  | cons k ks ih =>
    intro kd hksnd hknd hinv
    rcases List.nodup_cons.mp hksnd with ⟨hkks, hksnd'⟩
    simp only [List.foldl_cons]
    have hknd' : ((upsert k (kdUpdate a (allkw.count k)) kd).map Prod.fst).Nodup := by
      rw [upsert_keys]
      split
      · exact hknd
      · next hnm =>
        rw [List.nodup_append]
        refine ⟨hknd, List.nodup_singleton k, ?_⟩
        intro x hx hmem
        simp only [List.mem_singleton] at hmem
        subst hmem
        exact hnm hx
    refine ih (upsert k (kdUpdate a (allkw.count k)) kd) hksnd' hknd' ?_
    intro kv hkv
    rcases mem_upsert k (kdUpdate a (allkw.count k)) kd hknd kv hkv with
      ⟨hmem, hne⟩ | ⟨d, hd, heq⟩ | ⟨heq, _⟩
    · rcases hinv kv hmem with h | ⟨hnk, h⟩
      · exact Or.inl h
      · exact Or.inr ⟨fun hin => hnk (List.mem_cons_of_mem _ hin), h⟩
    · rcases hinv (k, d) hd with h | ⟨hnk, _⟩
      · refine Or.inr ⟨?_, ?_⟩
        · rw [show kv.1 = k from by rw [heq]]
          exact hkks
        · rw [show kv.2 = kdUpdate a (allkw.count k) d from by rw [heq]]
          exact KDataOk_update pre a _ d h
      · exact absurd (List.mem_cons_self k ks) hnk
    · refine Or.inr ⟨?_, ?_⟩
      · rw [show kv.1 = k from by rw [heq]]
        exact hkks
      · rw [show kv.2 = kdUpdate a (allkw.count k) kdEmpty from by rw [heq]]
        exact KDataOk_update_empty pre a _

theorem kd_invariant (stop : List String) :
    ∀ (rows : List ArticleRow) (kd : List (String × KData))
      (pre : List ArticleRow),
    (kd.map Prod.fst).Nodup →
    (∀ kv ∈ kd, KDataOk pre kv.2) →
    ((rows.foldl (addArticleKeywords stop) kd).map Prod.fst).Nodup ∧
    (∀ kv ∈ rows.foldl (addArticleKeywords stop) kd,
      KDataOk (pre ++ rows) kv.2) := by
  intro rows
  induction rows with
  | nil =>
    intro kd pre hknd hinv
    refine ⟨hknd, ?_⟩
    intro kv hkv
    simpa using hinv kv hkv
  | cons a rows ih =>
    intro kd pre hknd hinv
    have hstep := foldl_upsert_ok a pre
      (trend_extract_keywords stop a.title 2 ++
        trend_extract_keywords stop (takeStr a.content 500) 1)
      (dedupFirst (trend_extract_keywords stop a.title 2 ++
        trend_extract_keywords stop (takeStr a.content 500) 1)) kd
      (nodup_dedupFirst _) hknd (fun kv hkv => Or.inl (hinv kv hkv))
    have heq : addArticleKeywords stop kd a =
        (dedupFirst (trend_extract_keywords stop a.title 2 ++
          trend_extract_keywords stop (takeStr a.content 500) 1)).foldl
          (fun kd k => upsert k (kdUpdate a
            ((trend_extract_keywords stop a.title 2 ++
              trend_extract_keywords stop (takeStr a.content 500) 1).count k))
            kd) kd := rfl
    rw [← heq] at hstep
    rcases hstep with ⟨hnd2, hok2⟩
    have hrec := ih (addArticleKeywords stop kd a) (pre ++ [a]) hnd2 hok2
    rcases hrec with ⟨hnd3, hok3⟩
    refine ⟨hnd3, ?_⟩
    intro kv hkv
    have := hok3 kv hkv
    rwa [List.append_assoc, List.singleton_append] at this

theorem mem_topics_foldl (parseTs : String → Option ℚ) (min_articles : ℕ)
    (kd : List (String × KData)) :
    ∀ (acc : List TrendingTopic) (t : TrendingTopic),
    t ∈ kd.foldl (fun acc kv =>
      if min_articles ≤ kv.2.count then acc ++ [mkTopic parseTs kv]
      else acc) acc →
    t ∈ acc ∨ ∃ kv ∈ kd, t = mkTopic parseTs kv := by
  induction kd with
  | nil => intro acc t ht; exact Or.inl ht
  | cons kv0 kd ih =>
    intro acc t ht
    simp only [List.foldl_cons] at ht
    rcases ih _ t ht with hacc | ⟨kv, hkv, heq⟩
    · by_cases hc : min_articles ≤ kv0.2.count
      · rw [if_pos hc] at hacc
        rcases List.mem_append.mp hacc with h | h
        · exact Or.inl h
        · simp only [List.mem_singleton] at h
          exact Or.inr ⟨kv0, List.mem_cons_self _ _, h⟩
      · rw [if_neg hc] at hacc
        exact Or.inl hacc
    · exact Or.inr ⟨kv, List.mem_cons_of_mem _ hkv, heq⟩

theorem abs_list_sum_le (l : List ℚ) (h : ∀ x ∈ l, |x| ≤ 1) :
    |l.sum| ≤ (l.length : ℚ) := by
  induction l with
  | nil => simp
  | cons x xs ih =>
    simp only [List.sum_cons, List.length_cons]
    have h1 : |x| ≤ 1 := h x (List.mem_cons_self x xs)
    have h2 : |xs.sum| ≤ (xs.length : ℚ) :=
      ih (fun y hy => h y (List.mem_cons_of_mem x hy))
    calc |x + xs.sum| ≤ |x| + |xs.sum| := abs_add x xs.sum
      _ ≤ 1 + (xs.length : ℚ) := by linarith
      _ = ((xs.length + 1 : ℕ) : ℚ) := by push_cast; ring

theorem kdAvgSentiment_abs_le (rows : List ArticleRow) (d : KData)
    (hok : KDataOk rows d)
    (hsent : ∀ a ∈ rows, |a.sentiment_score| ≤ 1) :
    |kdAvgSentiment d| ≤ 1 := by
  rcases hok with ⟨hne, hmem, _⟩
  unfold kdAvgSentiment
  rw [if_neg hne]
  have hlen : (0:ℚ) < (d.sentiments.length : ℚ) := by
    have := List.length_pos.mpr hne
    exact_mod_cast this
  rw [abs_div, abs_of_pos hlen, div_le_one hlen]
  apply abs_list_sum_le
  intro x hx
  rcases hmem x hx with ⟨a, ha, heq⟩
  rw [heq]
  exact hsent a ha

theorem tsScore_nonneg (parseTs : String → Option ℚ) (s : String) :
    0 ≤ tsScore parseTs s := by
  unfold tsScore
  cases parseTs s with
  | none => exact le_refl 0
  | some q => exact le_max_left _ _

theorem tsScore_le_one (parseTs : String → Option ℚ)
    (hpar : ∀ s q, parseTs s = some q → 0 ≤ q) (s : String) :
    tsScore parseTs s ≤ 1 := by
  unfold tsScore
  cases h : parseTs s with
  | none => norm_num
  | some q =>
    have hq := hpar s q h
    apply max_le (by norm_num)
    have hd : 0 ≤ q / 24 := by positivity
    linarith

theorem list_sum_le_length (l : List ℚ) (h : ∀ x ∈ l, x ≤ 1) :
    l.sum ≤ (l.length : ℚ) := by
  induction l with
  | nil => simp
  | cons x xs ih =>
    simp only [List.sum_cons, List.length_cons]
    have h1 := h x (List.mem_cons_self x xs)
    have h2 := ih (fun y hy => h y (List.mem_cons_of_mem x hy))
    push_cast
    linarith

theorem recency_bounds (parseTs : String → Option ℚ)
    (hpar : ∀ s q, parseTs s = some q → 0 ≤ q) (timestamps : List String) :
    0 ≤ calculate_recency_score parseTs timestamps ∧
    calculate_recency_score parseTs timestamps ≤ 1 := by
  unfold calculate_recency_score
  split
  · norm_num
  · next hne =>
    rw [if_neg (by simpa using hne)]
    have hlen : (0:ℚ) < ((timestamps.map (tsScore parseTs)).length : ℚ) := by
      have h0 : timestamps.length ≠ 0 := fun h => hne (List.length_eq_zero.mp h)
      have h1 : 0 < timestamps.length := Nat.pos_of_ne_zero h0
      simp only [List.length_map]
      exact_mod_cast h1
    constructor
    · apply div_nonneg ?_ hlen.le
      apply List.sum_nonneg
      intro x hx
      rcases List.mem_map.mp hx with ⟨s, _, heq⟩
      rw [← heq]
      exact tsScore_nonneg parseTs s
    · rw [div_le_one hlen]
      apply list_sum_le_length
      intro x hx
      rcases List.mem_map.mp hx with ⟨s, _, heq⟩
      rw [← heq]
      exact tsScore_le_one parseTs hpar s

theorem roundHalfEven_bounds (y : ℚ) (h0 : 0 ≤ y) (h1 : y ≤ 1000) :
    0 ≤ roundHalfEven y ∧ roundHalfEven y ≤ 1000 := by
  unfold roundHalfEven
  have hf0 : 0 ≤ ⌊y⌋ := Int.floor_nonneg.mpr h0
  have hf1 : ⌊y⌋ ≤ 1000 := by
    have := Int.floor_le_floor h1
    simpa using this
  split
  · exact ⟨hf0, hf1⟩
  · next hr =>
    have hylb : (⌊y⌋ : ℚ) + 1/2 ≤ y := by
      have := not_lt.mp hr
      linarith
    have hf999 : ⌊y⌋ ≤ 999 := by
      by_contra hcon
      push_neg at hcon
      have hc1000 : (1000 : ℤ) ≤ ⌊y⌋ := hcon
      have hcast : ((1000:ℤ) : ℚ) ≤ (⌊y⌋ : ℚ) := by exact_mod_cast hc1000
      push_cast at hcast
      linarith
    split
    · exact ⟨by omega, by omega⟩
    · split
      · exact ⟨hf0, by omega⟩
      · exact ⟨by omega, by omega⟩

theorem round3_bounds (x : ℚ) (h0 : 0 ≤ x) (h1 : x ≤ 1) :
    0 ≤ round3 x ∧ round3 x ≤ 1 := by
  unfold round3
  have hb := roundHalfEven_bounds (x * 1000) (by positivity) (by nlinarith)
  constructor
  · apply div_nonneg ?_ (by norm_num)
    exact_mod_cast hb.1
  · rw [div_le_one (by norm_num : (0:ℚ) < 1000)]
    exact_mod_cast hb.2

theorem calculate_trend_score_bounds (freq cnt : ℕ) (sent rec : ℚ)
    (hsent : |sent| ≤ 1) (hrec0 : 0 ≤ rec) (hrec1 : rec ≤ 1) :
    0 ≤ calculate_trend_score freq cnt sent rec ∧
    calculate_trend_score freq cnt sent rec ≤ 1 := by
  unfold calculate_trend_score
  have ha0 : 0 ≤ min 1 ((freq : ℚ) / 20) := le_min (by norm_num) (by positivity)
  have ha1 : min 1 ((freq : ℚ) / 20) ≤ 1 := min_le_left _ _
  have hb0 : 0 ≤ min 1 ((cnt : ℚ) / 10) := le_min (by norm_num) (by positivity)
  have hb1 : min 1 ((cnt : ℚ) / 10) ≤ 1 := min_le_left _ _
  have hc0 : 0 ≤ |sent| := abs_nonneg sent
  apply round3_bounds
  · nlinarith
  · nlinarith

/-- C2: every computed topic's `trend_score` equals
`round(0.3*min(1, total_weighted_count/20) + 0.3*min(1, distinct/10) +
0.2*|mean sentiment| + 0.2*recency, 3)`; with distinct stored article
ids, the distinct contributing-article count is the topic's
`articles_count`; and assuming every stored sentiment score lies in
[-1, 1] and no parseable timestamp lies in the future (elapsed hours
are nonnegative, as scraped dates precede the analysis), the score lies
in [0, 1]. -/
theorem C2_trend_score (stop : List String) (parseTs : String → Option ℚ)
    (articles : List ArticleRow) (min_articles max_topics : ℕ) (fault : Bool)
    (hids : (articles.map (fun a => a.id)).Nodup)
    (hsent : ∀ a ∈ articles, |a.sentiment_score| ≤ 1)
    (hpar : ∀ s q, parseTs s = some q → 0 ≤ q)
    (t : TrendingTopic)
    (ht : t ∈ get_trending_topics stop parseTs fault articles
      min_articles max_topics) :
    (∃ recency : ℚ, 0 ≤ recency ∧ recency ≤ 1 ∧
      t.trend_score = round3 (min 1 ((t.frequency : ℚ) / 20) * (3/10) +
        min 1 ((t.articles_count : ℚ) / 10) * (3/10) +
        |t.avg_sentiment| * (1/5) + recency * (1/5))) ∧
    0 ≤ t.trend_score ∧ t.trend_score ≤ 1 := by
  cases fault with
  | true => simp [get_trending_topics] at ht
  | false =>
    by_cases hlen : articles.length < min_articles
    · rw [show get_trending_topics stop parseTs false articles
          min_articles max_topics = [] from by
        unfold get_trending_topics
        rw [if_neg (by simp), if_pos hlen]] at ht
      cases ht
    · have hres : get_trending_topics stop parseTs false articles
          min_articles max_topics
          = (sortDescBy (fun t => t.trend_score)
              ((extract_keywords_from_articles stop articles).foldl
                (fun acc kv =>
                  if min_articles ≤ kv.2.count then acc ++ [mkTopic parseTs kv]
                  else acc) [])).take max_topics := by
        unfold get_trending_topics
        rw [if_neg (by simp), if_neg hlen]
      rw [hres] at ht
      have ht2 := List.mem_of_mem_take ht
      rw [mem_sortDescBy] at ht2
      rcases mem_topics_foldl parseTs min_articles _ _ t ht2 with h | ⟨kv, hkv, heq⟩
      · cases h
      · have hkv' : kv ∈ articles.foldl (addArticleKeywords stop) [] := hkv
        have hok : KDataOk articles kv.2 := by
          have := (kd_invariant stop articles [] [] (by simp)
            (by intro kv h; cases h)).2 kv hkv'
          simpa using this
        have hids2 : (kv.2.articles.map (fun r => r.id)).Nodup :=
          hids.sublist hok.2.2
        have htot : kdTotalArticles kv.2 = kv.2.articles.length := by
          unfold kdTotalArticles
          rw [dedupFirst_eq_self _ hids2, List.length_map]
        have habs : |kdAvgSentiment kv.2| ≤ 1 :=
          kdAvgSentiment_abs_le articles kv.2 hok hsent
        have hrec := recency_bounds parseTs hpar kv.2.timestamps
        have hbounds := calculate_trend_score_bounds kv.2.count
          (kdTotalArticles kv.2) (kdAvgSentiment kv.2)
          (calculate_recency_score parseTs kv.2.timestamps) habs hrec.1 hrec.2
        subst heq
        refine ⟨⟨calculate_recency_score parseTs kv.2.timestamps,
          hrec.1, hrec.2, ?_⟩, hbounds.1, hbounds.2⟩
        show calculate_trend_score kv.2.count (kdTotalArticles kv.2)
          (kdAvgSentiment kv.2)
          (calculate_recency_score parseTs kv.2.timestamps) = _
        unfold calculate_trend_score
        rw [htot]
        rfl

/-- The keyword entry that the election corpus produces for "election",
spelled out (it is what the accumulation loop computes). -/
def electionKData : KData :=
  ⟨3, [articleRef rowElection], [(0 : ℚ)], ["t1"]⟩

def electionTopic : TrendingTopic :=
  mkTopic (fun _ => some 0) ("election", electionKData)

theorem C2_trend_score_witness :
    0 ≤ electionTopic.trend_score ∧ electionTopic.trend_score ≤ 1 :=
  (C2_trend_score trending_fallback_stopwords (fun _ => some 0) electionRows
    3 10 false
    (by decide)
    (by
      intro a ha
      simp only [electionRows, List.mem_cons, List.mem_singleton,
        List.not_mem_nil, or_false] at ha
      rcases ha with rfl | rfl | rfl <;>
        norm_num [rowElection, rowPad2, rowPad3])
    (by
      intro s q h
      simp only [Option.some.injEq] at h
      rw [← h])
    electionTopic
    (List.mem_cons_self _ _)).2

end DailyDigest
